import Mathlib

/-!
A shallow embedding of the portfolio valuation and metrics core of
`App.py` (Asset-allocation-streamlit).

Modelling conventions:
* Python floats are modelled as exact rationals (`ℚ`); the square root and
  real exponent used by the metrics live in `ℝ`.
* The pandas `DataFrame` of adjusted-close prices is modelled as an
  association list from ticker to its (already aligned) price column,
  prices listed in increasing date order.  The shared row count of the
  aligned frame is `nrows` (length of the first column).
* `pct_change().dropna()` on an aligned frame of positive prices drops
  exactly the first row; each remaining entry is `p[t]/p[t-1] - 1`.
* Exceptions raised by pandas indexing (`IndexError` from writing
  `iloc[0]` on an empty frame, `KeyError` from selecting a missing
  column) are modelled with an explicit `Outcome` type; the Streamlit
  `data_df.empty` branch (a handled error message) is `Outcome.noData`.
-/

/-- `pct_change().dropna()` on one price column (App.py line 122):
period-over-period fractional returns, one entry shorter than the
price column. -/
def pct_change (ps : List ℚ) : List ℚ :=
  (ps.zip ps.tail).map (fun pq => pq.2 / pq.1 - 1)

/-- Per-asset return columns of the aligned frame (App.py line 122). -/
def asset_returns (prices : List (String × List ℚ)) : List (String × List ℚ) :=
  prices.map (fun ap => (ap.1, pct_change ap.2))

/-- Weight normalisation (App.py lines 129-138): divide by the total when
it is positive, otherwise fall back to equal weighting over the selected
assets. -/
def normalized_weights (selected_assets : List String)
    (asset_weights : List (String × ℚ)) : List (String × ℚ) :=
  let total := (asset_weights.map Prod.snd).sum
  if 0 < total then
    asset_weights.map (fun aw => (aw.1, aw.2 / total))
  else if 0 < selected_assets.length then
    selected_assets.map (fun a => (a, 1 / (selected_assets.length : ℚ)))
  else []

/-- The configured initial investment (App.py line 141). -/
def initial_investment : ℚ := 10000

/-- Python dictionary / frame-column access on an association list. -/
def dict_get {β : Type} (a : String) : List (String × β) → Option β
  | [] => none
  | kb :: rest => if a = kb.1 then some kb.2 else dict_get a rest

/-- One day's weighted portfolio return (App.py lines 146-149): iterate the
selected assets, skip those without a normalised weight, and read column
`asset` at row `i-1` of the returns frame.  A missing column raises
`KeyError`, a missing row raises `IndexError`. -/
def daily_return (nw : List (String × ℚ)) (rets : List (String × List ℚ)) :
    List String → Nat → ℚ → Except String ℚ
  | [], _, acc => Except.ok acc
  | asset :: rest, i, acc =>
    match dict_get asset nw with
    | none => daily_return nw rets rest i acc
    | some w =>
      match dict_get asset rets with
      | none => Except.error ("KeyError: " ++ asset)
      | some rs =>
        match rs.get? (i - 1) with
        | none => Except.error "IndexError: single positional indexer is out-of-bounds"
        | some r => daily_return nw rets rest i (acc + r * w)

/-- The valuation loop (App.py lines 145-150): starting at row `i` with the
previous value `prev`, produce the remaining `k` portfolio values
`value[i] = value[i-1] * (1 + dailyReturn i)`. -/
def valuation_steps (nw : List (String × ℚ)) (rets : List (String × List ℚ))
    (sel : List String) : Nat → Nat → ℚ → Except String (List ℚ)
  | 0, _, _ => Except.ok []
  | k + 1, i, prev =>
    match daily_return nw rets sel i 0 with
    | Except.error e => Except.error e
    | Except.ok dr =>
      match valuation_steps nw rets sel k (i + 1) (prev * (1 + dr)) with
      | Except.error e => Except.error e
      | Except.ok rest => Except.ok (prev * (1 + dr) :: rest)

/-- Row count of the aligned price frame. -/
def nrows (prices : List (String × List ℚ)) : Nat :=
  match prices with
  | [] => 0
  | ap :: _ => ap.2.length

/-- Result of running the script's calculation section on a price frame. -/
inductive Outcome where
  /-- A portfolio value series was produced. -/
  | ok (series : List ℚ)
  /-- `data_df.empty` was true: the script shows an error message and stops. -/
  | noData
  /-- An unhandled Python exception escaped the calculation. -/
  | raises (msg : String)
deriving DecidableEq

/-- App.py lines 116-150: the `data_df.empty` guard, the returns frame, the
normalised weights, and the valuation loop over the portfolio frame (whose
index is the returns index, of length `nrows - 1`).  Writing the initial
investment into row 0 of an empty portfolio frame raises `IndexError`. -/
def computePortfolio (selected : List String) (weights : List (String × ℚ))
    (prices : List (String × List ℚ)) : Outcome :=
  if nrows prices = 0 then Outcome.noData
  else if nrows prices - 1 = 0 then
    Outcome.raises "IndexError: iloc cannot enlarge its target object"
  else
    match valuation_steps (normalized_weights selected weights)
        (asset_returns prices) selected (nrows prices - 1 - 1) 1 initial_investment with
    | Except.error e => Outcome.raises e
    | Except.ok rest => Outcome.ok (initial_investment :: rest)

/-- Cumulative return (App.py line 166). -/
def cumulative_return (l : List ℚ) : ℚ :=
  if l.isEmpty then 0 else l.getLastD 0 / l.headD 0 - 1

/-- Sample variance with the pandas default `ddof = 1`.  (For a single
observation pandas yields NaN; division by zero yields `0` here, and both
fail the `stdev > 0` guard below in the same way.) -/
def sample_variance (rs : List ℚ) : ℚ :=
  let n : ℚ := rs.length
  let mean := rs.sum / n
  ((rs.map (fun r => (r - mean) ^ 2)).sum) / (n - 1)

/-- `returns.std()` guarded by `returns.empty` (App.py lines 164, 168),
where `returns` is the period return series of the portfolio values. -/
noncomputable def stdev (l : List ℚ) : ℝ :=
  let rs := pct_change l
  if rs.isEmpty then 0 else Real.sqrt ((sample_variance rs : ℚ) : ℝ)

/-- Annualised return (App.py line 167): `(1 + c)^(252/len(returns)) - 1`
when there is at least one portfolio return, else `0`. -/
noncomputable def annual_return (l : List ℚ) : ℝ :=
  let rets := pct_change l
  if 0 < rets.length then
    (1 + (cumulative_return l : ℝ)) ^ ((252 : ℝ) / (rets.length : ℝ)) - 1
  else 0

/-- `sharpe_ratio` (App.py line 169): `annual_return / stdev if stdev > 0
else 0`. -/
noncomputable def sharpe (l : List ℚ) : ℝ :=
  if 0 < stdev l then annual_return l / stdev l else 0

/-- Tail of the cumulative maximum, carrying the maximum `m` seen so far. -/
def cummaxAux (m : ℚ) : List ℚ → List ℚ
  | [] => []
  | x :: xs => max m x :: cummaxAux (max m x) xs

/-- `portfolio_value.cummax()` (App.py line 172). -/
def cummax : List ℚ → List ℚ
  | [] => []
  | x :: xs => x :: cummaxAux x xs

/-- `drawdown = portfolio_value / rolling_max - 1.0` (App.py line 173). -/
def drawdown (l : List ℚ) : List ℚ :=
  List.zipWith (fun v m => v / m - 1) l (cummax l)

/-- pandas `.min()` of a series, with `0` standing in for the guarded
empty case. -/
def listMin : List ℚ → ℚ
  | [] => 0
  | x :: xs => xs.foldl min x

/-- `max_drawdown = drawdown.min() if not drawdown.empty else 0`
(App.py line 174). -/
def max_drawdown (l : List ℚ) : ℚ := listMin (drawdown l)

/-- Maximum of a series (`0` for the empty series). -/
def listMax : List ℚ → ℚ
  | [] => 0
  | x :: xs => xs.foldl max x

/-- The spec's drawdown formula, stated independently of the code:
the minimum over `t` of `value[t] / runningMax(value[0..t]) - 1`, where
`runningMax` is the maximum of the first `t+1` values. -/
def max_drawdown_formula (l : List ℚ) : ℚ :=
  listMin ((List.range l.length).map
    (fun t => l.getD t 0 / listMax (l.take (t + 1)) - 1))

/-- The slider rebalancing step (App.py lines 56-68) on the list of slider
weights: if the total misses 100 by more than `1e-6`, add the equal share
of the difference to every weight and clamp each into `[0, 100]`. -/
def rebalance (ws : List ℚ) : List ℚ :=
  let total := ws.sum
  let diff := 100 - total
  if 1 / 1000000 < |diff| then
    if 0 < ws.length then
      ws.map (fun w => max 0 (min 100 (w + diff / (ws.length : ℚ))))
    else ws
  else ws

/-! ### Helper lemmas about list sums -/

theorem sum_map_div (l : List ℚ) (c : ℚ) :
    (l.map (fun x => x / c)).sum = l.sum / c := by
  induction l with
  | nil => simp
  | cons x xs ih => simp [ih, add_div]

theorem sum_map_const {α : Type} (l : List α) (c : ℚ) :
    (l.map (fun _ => c)).sum = l.length * c := by
  induction l with
  | nil => simp
  | cons x xs ih => simp [ih, add_one_mul, add_comm]

/-! ### Helper lemmas about the weight normaliser -/

theorem normalized_weights_pos (selected : List String)
    (weights : List (String × ℚ)) (h : 0 < (weights.map Prod.snd).sum) :
    normalized_weights selected weights =
      weights.map (fun aw => (aw.1, aw.2 / (weights.map Prod.snd).sum)) := by
  simp only [normalized_weights, if_pos h]

theorem normalized_weights_zero (selected : List String)
    (weights : List (String × ℚ)) (h : ¬ 0 < (weights.map Prod.snd).sum)
    (hsel : 0 < selected.length) :
    normalized_weights selected weights =
      selected.map (fun a => (a, 1 / (selected.length : ℚ))) := by
  simp only [normalized_weights, if_neg h, if_pos hsel]

theorem normalized_weights_sum_pos (selected : List String)
    (weights : List (String × ℚ)) (h : 0 < (weights.map Prod.snd).sum) :
    ((normalized_weights selected weights).map Prod.snd).sum = 1 := by
  rw [normalized_weights_pos selected weights h, List.map_map]
  have hmm : (Prod.snd ∘ fun aw : String × ℚ =>
      (aw.1, aw.2 / (weights.map Prod.snd).sum)) =
      (fun x => x / (weights.map Prod.snd).sum) ∘ Prod.snd := rfl
  rw [hmm, ← List.map_map]
  rw [sum_map_div]
  exact div_self (ne_of_gt h)

theorem normalized_weights_sum_zero (selected : List String)
    (weights : List (String × ℚ)) (h : ¬ 0 < (weights.map Prod.snd).sum)
    (hsel : 0 < selected.length) :
    ((normalized_weights selected weights).map Prod.snd).sum = 1 := by
  rw [normalized_weights_zero selected weights h hsel, List.map_map]
  have hmm : (Prod.snd ∘ fun a : String =>
      (a, 1 / (selected.length : ℚ))) = fun _ => 1 / (selected.length : ℚ) := rfl
  rw [hmm, sum_map_const]
  have hne : (selected.length : ℚ) ≠ 0 := by
    exact_mod_cast Nat.pos_iff_ne_zero.mp hsel
  field_simp

/-! ### Claims about the weight normaliser -/

/-- Claim C5: for every weight vector whose total is strictly positive, the
weight normaliser maps each asset to `weight / total`, and the normalised
values sum to 1 within tolerance `1e-9`. -/
theorem claim_C5 (selected : List String) (weights : List (String × ℚ))
    (h : 0 < (weights.map Prod.snd).sum) :
    normalized_weights selected weights =
      weights.map (fun aw => (aw.1, aw.2 / (weights.map Prod.snd).sum)) ∧
    |((normalized_weights selected weights).map Prod.snd).sum - 1| ≤
      1 / 1000000000 := by
  refine ⟨normalized_weights_pos selected weights h, ?_⟩
  rw [normalized_weights_sum_pos selected weights h]
  norm_num

/-- Witness for C5 at a concrete weight vector with positive total. -/
theorem claim_C5_witness :
    (0 < ((([("A", (100:ℚ))]).map Prod.snd).sum)) ∧
    (normalized_weights ["A"] [("A", (100:ℚ))] =
      [("A", (100:ℚ))].map
        (fun aw => (aw.1, aw.2 / (([("A", (100:ℚ))]).map Prod.snd).sum)) ∧
    |((normalized_weights ["A"] [("A", (100:ℚ))]).map Prod.snd).sum - 1| ≤
      1 / 1000000000) :=
  ⟨by norm_num, claim_C5 ["A"] [("A", 100)] (by norm_num)⟩

/-- Claim C6: for every (non-negative, per the spec's WeightVector
invariant) weight vector, every normalised weight is a fraction in
`[0, 1]`, and when the selected asset set is non-empty the normalised
weights sum to 1 within floating tolerance. -/
theorem claim_C6 (selected : List String) (weights : List (String × ℚ))
    (hpos : ∀ p ∈ weights, 0 ≤ p.2) :
    (∀ q ∈ normalized_weights selected weights, 0 ≤ q.2 ∧ q.2 ≤ 1) ∧
    (selected ≠ [] →
      |((normalized_weights selected weights).map Prod.snd).sum - 1| ≤
        1 / 1000000000) := by
  by_cases htot : 0 < (weights.map Prod.snd).sum
  · constructor
    · intro q hq
      rw [normalized_weights_pos selected weights htot] at hq
      obtain ⟨aw, haw, rfl⟩ := List.mem_map.mp hq
      have h0 : 0 ≤ aw.2 := hpos aw haw
      have hle : aw.2 ≤ (weights.map Prod.snd).sum := by
        refine List.single_le_sum ?_ _ (List.mem_map_of_mem Prod.snd haw)
        intro x hx
        obtain ⟨p, hp, rfl⟩ := List.mem_map.mp hx
        exact hpos p hp
      exact ⟨div_nonneg h0 (le_of_lt htot), (div_le_one htot).mpr hle⟩
    · intro _
      rw [normalized_weights_sum_pos selected weights htot]
      norm_num
  · rcases List.eq_nil_or_concat selected with hsel | hne
    · subst hsel
      refine ⟨?_, by simp⟩
      intro q hq
      simp only [normalized_weights, if_neg htot] at hq
      simp at hq
    · have hsel : 0 < selected.length := by
        obtain ⟨l, a, rfl⟩ := hne
        simp
      constructor
      · intro q hq
        rw [normalized_weights_zero selected weights htot hsel] at hq
        obtain ⟨a, _, rfl⟩ := List.mem_map.mp hq
        have h1 : (1:ℚ) ≤ (selected.length : ℚ) := by exact_mod_cast hsel
        constructor
        · positivity
        · rw [div_le_one (by linarith)]
          exact h1
      · intro _
        rw [normalized_weights_sum_zero selected weights htot hsel]
        norm_num

/-- Witness for C6 at a concrete non-negative weight vector. -/
theorem claim_C6_witness :
    (∀ p ∈ [("A", (1:ℚ)), ("B", 3)], 0 ≤ p.2) ∧
    ((∀ q ∈ normalized_weights ["A", "B"] [("A", (1:ℚ)), ("B", 3)],
        0 ≤ q.2 ∧ q.2 ≤ 1) ∧
    (["A", "B"] ≠ ([] : List String) →
      |((normalized_weights ["A", "B"] [("A", (1:ℚ)), ("B", 3)]).map
          Prod.snd).sum - 1| ≤ 1 / 1000000000)) :=
  ⟨by norm_num, claim_C6 ["A", "B"] [("A", 1), ("B", 3)] (by norm_num)⟩

/-! ### Claim about the slider rebalancing step -/

/-- Claim C10: if every slider weight lies in `[0, 100]` (the slider
bounds), then after the rebalancing step every weight still lies in
`[0, 100]`; and the rebalancing does not guarantee a total of 100, as the
concrete slider state `[0, 100, 100]` shows. -/
theorem claim_C10 (ws : List ℚ) (h : ∀ w ∈ ws, 0 ≤ w ∧ w ≤ 100) :
    (∀ w ∈ rebalance ws, 0 ≤ w ∧ w ≤ 100) ∧
    (rebalance [0, 100, 100]).sum ≠ 100 := by
  constructor
  · intro w hw
    simp only [rebalance] at hw
    by_cases h1 : 1 / 1000000 < |100 - ws.sum|
    · rw [if_pos h1] at hw
      by_cases h2 : 0 < ws.length
      · rw [if_pos h2] at hw
        obtain ⟨v, _, rfl⟩ := List.mem_map.mp hw
        constructor
        · exact le_max_left 0 _
        · exact max_le (by norm_num) (min_le_left 100 _)
      · rw [if_neg h2] at hw
        exact h w hw
    · rw [if_neg h1] at hw
      exact h w hw
  · have : rebalance [0, 100, 100] = [0, 200/3, 200/3] := by
      simp only [rebalance]
      norm_num [abs]
    rw [this]
    norm_num

/-- Witness for C10 at a concrete slider state. -/
theorem claim_C10_witness :
    (∀ w ∈ [(20:ℚ), 30, 50], 0 ≤ w ∧ w ≤ 100) ∧
    ((∀ w ∈ rebalance [(20:ℚ), 30, 50], 0 ≤ w ∧ w ≤ 100) ∧
     (rebalance [0, 100, 100]).sum ≠ 100) :=
  ⟨by norm_num, claim_C10 [20, 30, 50] (by norm_num)⟩

/-! ### Helper lemmas about the valuation loop -/

theorem pct_change_length (ps : List ℚ) :
    (pct_change ps).length = ps.length - 1 := by
  simp only [pct_change, List.length_map, List.length_zip, List.length_tail]
  omega

theorem dict_get_some_mem {β : Type} {a : String} {b : β} :
    ∀ {l : List (String × β)}, dict_get a l = some b → (a, b) ∈ l := by
  intro l
  induction l with
  | nil => simp [dict_get]
  | cons kb rest ih =>
    obtain ⟨k1, k2⟩ := kb
    simp only [dict_get]
    by_cases h : a = k1
    · rw [if_pos h]
      intro hb
      have hb2 : k2 = b := by injection hb
      rw [h, hb2]
      exact List.mem_cons_self _ _
    · rw [if_neg h]
      intro hb
      exact List.mem_cons_of_mem _ (ih hb)

theorem dict_get_asset_returns (a : String) (prices : List (String × List ℚ)) :
    dict_get a (asset_returns prices) = (dict_get a prices).map pct_change := by
  induction prices with
  | nil => simp [asset_returns, dict_get]
  | cons ap rest ih =>
    simp only [asset_returns, List.map_cons, dict_get] at *
    by_cases h : a = ap.1
    · simp [if_pos h]
    · simp [if_neg h, ih]

theorem daily_return_cons_skip {nw : List (String × ℚ)}
    {rets : List (String × List ℚ)} {asset : String} {rest : List String}
    {i : Nat} {acc : ℚ} (h : dict_get asset nw = none) :
    daily_return nw rets (asset :: rest) i acc =
      daily_return nw rets rest i acc := by
  simp [daily_return, h]

theorem daily_return_cons_keyerr {nw : List (String × ℚ)}
    {rets : List (String × List ℚ)} {asset : String} {rest : List String}
    {i : Nat} {acc w : ℚ} (h1 : dict_get asset nw = some w)
    (h2 : dict_get asset rets = none) :
    daily_return nw rets (asset :: rest) i acc =
      Except.error ("KeyError: " ++ asset) := by
  simp [daily_return, h1, h2]

theorem daily_return_cons_step {nw : List (String × ℚ)}
    {rets : List (String × List ℚ)} {asset : String} {rest : List String}
    {i : Nat} {acc w r : ℚ} {rs : List ℚ} (h1 : dict_get asset nw = some w)
    (h2 : dict_get asset rets = some rs) (h3 : rs[i - 1]? = some r) :
    daily_return nw rets (asset :: rest) i acc =
      daily_return nw rets rest i (acc + r * w) := by
  simp [daily_return, h1, h2, h3]

/-- If every selected asset that has a normalised weight also has a return
column with row `i - 1` present, the day's return computation succeeds. -/
theorem daily_return_ok (nw : List (String × ℚ))
    (rets : List (String × List ℚ)) (i : Nat) :
    ∀ (sel : List String) (acc : ℚ),
      (∀ a ∈ sel, (dict_get a nw).isSome →
        ∃ rs, dict_get a rets = some rs ∧ i - 1 < rs.length) →
      ∃ dr, daily_return nw rets sel i acc = Except.ok dr := by
  intro sel
  induction sel with
  | nil => exact fun acc _ => ⟨acc, rfl⟩
  | cons asset rest ih =>
    intro acc hcond
    cases hnw : dict_get asset nw with
    | none =>
      rw [daily_return_cons_skip hnw]
      exact ih acc (fun a ha hs => hcond a (List.mem_cons_of_mem _ ha) hs)
    | some w =>
      obtain ⟨rs, hrs, hlen⟩ :=
        hcond asset (List.mem_cons_self _ _) (by rw [hnw]; rfl)
      rw [daily_return_cons_step hnw hrs (List.getElem?_eq_getElem hlen)]
      exact ih _ (fun a ha hs => hcond a (List.mem_cons_of_mem _ ha) hs)

/-- If some selected asset has a normalised weight but no return column,
and every selected asset with both a weight and a column has row `i - 1`
present, the day's return computation raises a `KeyError` naming such an
asset. -/
theorem daily_return_keyerr (nw : List (String × ℚ))
    (rets : List (String × List ℚ)) (i : Nat) :
    ∀ (sel : List String) (acc : ℚ),
      (∃ a ∈ sel, (dict_get a nw).isSome ∧ dict_get a rets = none) →
      (∀ a ∈ sel, (dict_get a nw).isSome →
        ∀ rs, dict_get a rets = some rs → i - 1 < rs.length) →
      ∃ a, a ∈ sel ∧ dict_get a rets = none ∧
        daily_return nw rets sel i acc =
          Except.error ("KeyError: " ++ a) := by
  intro sel
  induction sel with
  | nil => rintro acc ⟨a, ha, _⟩ _; simp at ha
  | cons asset rest ih =>
    intro acc hex hrow
    cases hnw : dict_get asset nw with
    | none =>
      rw [daily_return_cons_skip hnw]
      obtain ⟨a, ha, hsome, hnone⟩ := hex
      have ha' : a ∈ rest := by
        rcases List.mem_cons.mp ha with rfl | h
        · rw [hnw] at hsome; simp at hsome
        · exact h
      obtain ⟨a', h1, h2, h3⟩ := ih acc ⟨a, ha', hsome, hnone⟩
        (fun b hb hs => hrow b (List.mem_cons_of_mem _ hb) hs)
      exact ⟨a', List.mem_cons_of_mem _ h1, h2, h3⟩
    | some w =>
      cases hr : dict_get asset rets with
      | none =>
        exact ⟨asset, List.mem_cons_self _ _, hr,
          daily_return_cons_keyerr hnw hr⟩
      | some rs =>
        have hlen : i - 1 < rs.length :=
          hrow asset (List.mem_cons_self _ _) (by rw [hnw]; rfl) rs hr
        rw [daily_return_cons_step hnw hr (List.getElem?_eq_getElem hlen)]
        obtain ⟨a, ha, hsome, hnone⟩ := hex
        have ha' : a ∈ rest := by
          rcases List.mem_cons.mp ha with rfl | h
          · rw [hr] at hnone; simp at hnone
          · exact h
        obtain ⟨a', h1, h2, h3⟩ := ih _ ⟨a, ha', hsome, hnone⟩
          (fun b hb hs => hrow b (List.mem_cons_of_mem _ hb) hs)
        exact ⟨a', List.mem_cons_of_mem _ h1, h2, h3⟩

theorem valuation_steps_succ_ok {nw : List (String × ℚ)}
    {rets : List (String × List ℚ)} {sel : List String} {k i : Nat}
    {prev dr : ℚ} {vs : List ℚ}
    (hdr : daily_return nw rets sel i 0 = Except.ok dr)
    (hrest : valuation_steps nw rets sel k (i + 1) (prev * (1 + dr)) =
      Except.ok vs) :
    valuation_steps nw rets sel (k + 1) i prev =
      Except.ok (prev * (1 + dr) :: vs) := by
  simp [valuation_steps, hdr, hrest]

theorem valuation_steps_succ_err {nw : List (String × ℚ)}
    {rets : List (String × List ℚ)} {sel : List String} {k i : Nat}
    {prev : ℚ} {e : String}
    (hdr : daily_return nw rets sel i 0 = Except.error e) :
    valuation_steps nw rets sel (k + 1) i prev = Except.error e := by
  simp [valuation_steps, hdr]

/-- If rows `i .. i+k-1` are all available for every weighted selected
asset, the valuation loop succeeds and produces `k` values. -/
theorem valuation_steps_ok (nw : List (String × ℚ))
    (rets : List (String × List ℚ)) (sel : List String) :
    ∀ (k i : Nat) (prev : ℚ),
      (∀ j, i ≤ j → j < i + k → ∀ a ∈ sel, (dict_get a nw).isSome →
        ∃ rs, dict_get a rets = some rs ∧ j - 1 < rs.length) →
      ∃ vs, valuation_steps nw rets sel k i prev = Except.ok vs ∧
        vs.length = k := by
  intro k
  induction k with
  | zero => exact fun i prev _ => ⟨[], rfl, rfl⟩
  | succ k ih =>
    intro i prev hcond
    obtain ⟨dr, hdr⟩ := daily_return_ok nw rets i sel 0
      (fun a ha hs => hcond i (le_refl i) (by omega) a ha hs)
    obtain ⟨vs, hvs, hlen⟩ := ih (i + 1) (prev * (1 + dr))
      (fun j h1 h2 a ha hs => hcond j (by omega) (by omega) a ha hs)
    exact ⟨_, valuation_steps_succ_ok hdr hvs, by simp [hlen]⟩

/-! ### Claims about the valuation loop -/

/-- Claim C1 (code evaluation at the failing input): for the single asset
`A` with weight 100 and the two aligned prices `[100, 105]` there is one
return period, yet the produced series is `[10000]` of length 1, not
length 2: the series is indexed by the return dates and the final return
is never applied. -/
theorem claim_C1 :
    computePortfolio ["A"] [("A", 100)] [("A", [100, 105])] =
      Outcome.ok [initial_investment] ∧
    (pct_change [(100:ℚ), 105]).length = 1 := by
  constructor
  · norm_num [computePortfolio, nrows, valuation_steps, initial_investment]
  · norm_num [pct_change, List.zip]

/-- Claim C2 (code evaluation at the failing input): scenario B (single
asset, weight 100, one +5% return period, initial investment 10000)
produces the series `[10000]`, so the final value is 10000 (not 10500)
and the cumulative return is 0 (not 0.05). -/
theorem claim_C2 :
    computePortfolio ["A"] [("A", 100)] [("A", [100, 105])] =
      Outcome.ok [10000] ∧
    cumulative_return [10000] = 0 := by
  constructor
  · norm_num [computePortfolio, nrows, valuation_steps, initial_investment]
  · norm_num [cumulative_return]

/-- Claim C3 counterexample: with exactly one aligned price point the
computation raises an `IndexError` instead of producing a series whose
index 0 holds the initial investment. -/
theorem claim_C3_counterexample :
    computePortfolio ["A"] [("A", 100)] [("A", [100])] =
      Outcome.raises "IndexError: iloc cannot enlarge its target object" := by
  norm_num [computePortfolio, nrows]

/-- Claim C3 (amended): for every valid input — aligned price matrix
covering the selected assets — with at least TWO aligned price points,
the produced portfolio series has the configured initial investment at
index 0. -/
theorem claim_C3 (selected : List String) (weights : List (String × ℚ))
    (prices : List (String × List ℚ))
    (halign : ∀ ap ∈ prices, ap.2.length = nrows prices)
    (h2 : 2 ≤ nrows prices)
    (hcov : ∀ a ∈ selected, (dict_get a prices).isSome) :
    ∃ v, computePortfolio selected weights prices = Outcome.ok v ∧
      v.head? = some initial_investment := by
  have hcond : ∀ j, 1 ≤ j → j < 1 + (nrows prices - 1 - 1) →
      ∀ a ∈ selected,
        (dict_get a (normalized_weights selected weights)).isSome →
        ∃ rs, dict_get a (asset_returns prices) = some rs ∧
          j - 1 < rs.length := by
    intro j hj1 hj2 a ha _
    obtain ⟨ps, hps⟩ := Option.isSome_iff_exists.mp (hcov a ha)
    refine ⟨pct_change ps, ?_, ?_⟩
    · rw [dict_get_asset_returns, hps]
      rfl
    · have hlen : ps.length = nrows prices := halign _ (dict_get_some_mem hps)
      rw [pct_change_length, hlen]
      omega
  obtain ⟨vs, hvs, _⟩ := valuation_steps_ok (normalized_weights selected weights)
    (asset_returns prices) selected (nrows prices - 1 - 1) 1 initial_investment
    hcond
  refine ⟨initial_investment :: vs, ?_, rfl⟩
  simp only [computePortfolio]
  rw [if_neg (by omega), if_neg (by omega), hvs]

/-- Witness for the amended C3 at a concrete three-point price series. -/
theorem claim_C3_witness :
    (2 ≤ nrows [("A", [(100:ℚ), 105, 110])]) ∧
    (∃ v, computePortfolio ["A"] [("A", 100)] [("A", [100, 105, 110])] =
        Outcome.ok v ∧ v.head? = some initial_investment) :=
  ⟨by norm_num [nrows],
    claim_C3 ["A"] [("A", 100)] [("A", [100, 105, 110])]
      (by intro ap hap; fin_cases hap; rfl)
      (by norm_num [nrows])
      (by intro a ha; fin_cases ha; rfl)⟩

/-- Claim C4 (code evaluation at the failing input): a single aligned
price point is "insufficient data", but the script raises `IndexError`
when writing the initial investment into row 0 of the empty portfolio
frame, instead of returning a benign insufficient-data outcome. -/
theorem claim_C4 :
    computePortfolio ["B"] [("B", 50)] [("B", [42])] =
      Outcome.raises "IndexError: iloc cannot enlarge its target object" := by
  norm_num [computePortfolio, nrows]

/-- Claim C9 counterexample: with asset `X` carrying weight 50 but absent
from the price matrix, the computation raises an unhandled
`KeyError: X` rather than reporting a structured precondition-violation
outcome. -/
theorem claim_C9_counterexample :
    computePortfolio ["A", "X"] [("A", 50), ("X", 50)] [("A", [4, 5, 6])] =
      Outcome.raises "KeyError: X" := by
  simp [computePortfolio, nrows, valuation_steps, daily_return,
    normalized_weights, asset_returns, pct_change, List.zip, dict_get,
    initial_investment]

/-- Claim C9 (amended): whenever a selected asset has a normalised weight
but no column in the (aligned, at least three-point) price matrix, the
computation terminates with an unhandled `KeyError` naming such an
asset; it does not substitute a zero return for it, and it does not
produce a structured precondition-violation outcome. -/
theorem claim_C9 (selected : List String) (weights : List (String × ℚ))
    (prices : List (String × List ℚ)) (X : String)
    (halign : ∀ ap ∈ prices, ap.2.length = nrows prices)
    (h3 : 3 ≤ nrows prices)
    (hXsel : X ∈ selected)
    (hXnw : (dict_get X (normalized_weights selected weights)).isSome)
    (hXmiss : dict_get X prices = none) :
    ∃ a, a ∈ selected ∧ dict_get a prices = none ∧
      computePortfolio selected weights prices =
        Outcome.raises ("KeyError: " ++ a) := by
  have hXrets : dict_get X (asset_returns prices) = none := by
    rw [dict_get_asset_returns, hXmiss]
    rfl
  have hrow : ∀ a ∈ selected,
      (dict_get a (normalized_weights selected weights)).isSome →
      ∀ rs, dict_get a (asset_returns prices) = some rs →
        1 - 1 < rs.length := by
    intro a _ _ rs hrs
    rw [dict_get_asset_returns] at hrs
    obtain ⟨ps, hps, hrs2⟩ := Option.map_eq_some'.mp hrs
    have hlen := halign _ (dict_get_some_mem hps)
    rw [← hrs2, pct_change_length, hlen]
    omega
  obtain ⟨a, ha, hanone, herr⟩ := daily_return_keyerr
    (normalized_weights selected weights) (asset_returns prices) 1 selected 0
    ⟨X, hXsel, hXnw, hXrets⟩ hrow
  have hanone' : dict_get a prices = none := by
    rw [dict_get_asset_returns] at hanone
    exact Option.map_eq_none'.mp hanone
  refine ⟨a, ha, hanone', ?_⟩
  obtain ⟨m, hm⟩ : ∃ m, nrows prices - 1 - 1 = m + 1 :=
    ⟨nrows prices - 3, by omega⟩
  simp only [computePortfolio]
  rw [if_neg (by omega), if_neg (by omega), hm,
    valuation_steps_succ_err herr]

/-- Witness for the amended C9 at a concrete input. -/
theorem claim_C9_witness :
    (3 ≤ nrows [("A", [(4:ℚ), 5, 6])]) ∧
    (∃ a, a ∈ ["A", "X"] ∧ dict_get a [("A", [(4:ℚ), 5, 6])] = none ∧
      computePortfolio ["A", "X"] [("A", 50), ("X", 50)] [("A", [4, 5, 6])] =
        Outcome.raises ("KeyError: " ++ a)) :=
  ⟨by norm_num [nrows],
    claim_C9 ["A", "X"] [("A", 50), ("X", 50)] [("A", [4, 5, 6])] "X"
      (by intro ap hap; fin_cases hap; rfl)
      (by norm_num [nrows])
      (by simp)
      (by norm_num [normalized_weights, dict_get])
      (by decide)⟩

/-! ### Helper lemmas about running maxima and minima -/

theorem cummaxAux_length (m : ℚ) (xs : List ℚ) :
    (cummaxAux m xs).length = xs.length := by
  induction xs generalizing m with
  | nil => rfl
  | cons x xs ih => simp [cummaxAux, ih]

theorem cummax_length (l : List ℚ) : (cummax l).length = l.length := by
  cases l with
  | nil => rfl
  | cons x xs => simp [cummax, cummaxAux_length]

theorem foldl_max_assoc (l : List ℚ) (a b : ℚ) :
    l.foldl max (max a b) = max a (l.foldl max b) := by
  induction l generalizing b with
  | nil => rfl
  | cons c l ih => simp only [List.foldl_cons, max_assoc, ih]

theorem foldl_min_le_init (l : List ℚ) (a : ℚ) : l.foldl min a ≤ a := by
  induction l generalizing a with
  | nil => exact le_refl a
  | cons x xs ih => exact le_trans (ih (min a x)) (min_le_left a x)

theorem foldl_min_const (l : List ℚ) (a : ℚ) (h : ∀ z ∈ l, a ≤ z) :
    l.foldl min a = a := by
  induction l with
  | nil => rfl
  | cons x xs ih =>
    simp only [List.foldl_cons, min_eq_left (h x (List.mem_cons_self _ _))]
    exact ih (fun z hz => h z (List.mem_cons_of_mem _ hz))

theorem cummaxAux_getD (xs : List ℚ) :
    ∀ (m : ℚ) (t : Nat), t < xs.length →
      (cummaxAux m xs).getD t 0 = max m (listMax (xs.take (t + 1))) := by
  induction xs with
  | nil => intro m t h; simp at h
  | cons x xs ih =>
    intro m t h
    cases t with
    | zero => simp [cummaxAux, listMax]
    | succ t =>
      have ht : t < xs.length := by simpa using h
      simp only [cummaxAux, List.getD_cons_succ]
      rw [ih (max m x) t ht]
      rw [List.take_succ_cons]
      cases htake : xs.take (t + 1) with
      | nil =>
        exfalso
        have : (xs.take (t + 1)).length = t + 1 := by
          rw [List.length_take]
          omega
        rw [htake] at this
        simp at this
      | cons y l =>
        simp only [listMax, List.foldl_cons]
        rw [max_assoc, ← foldl_max_assoc]

theorem cummax_getD (l : List ℚ) :
    ∀ (t : Nat), t < l.length →
      (cummax l).getD t 0 = listMax (l.take (t + 1)) := by
  cases l with
  | nil => intro t h; simp at h
  | cons x xs =>
    intro t h
    cases t with
    | zero => simp [cummax, listMax]
    | succ t =>
      have ht : t < xs.length := by simpa using h
      simp only [cummax, List.getD_cons_succ]
      rw [cummaxAux_getD xs x t ht, List.take_succ_cons]
      cases htake : xs.take (t + 1) with
      | nil =>
        exfalso
        have : (xs.take (t + 1)).length = t + 1 := by
          rw [List.length_take]
          omega
        rw [htake] at this
        simp at this
      | cons y l =>
        simp only [listMax, List.foldl_cons]
        rw [← foldl_max_assoc]

/-- The code's max drawdown agrees with the spec's closed formula on
every series. -/
theorem max_drawdown_eq_formula (l : List ℚ) :
    max_drawdown l = max_drawdown_formula l := by
  unfold max_drawdown max_drawdown_formula
  congr 1
  apply List.ext_getElem
  · simp [drawdown, cummax_length]
  · intro n h1 h2
    have hn : n < l.length := by
      simpa [drawdown, cummax_length] using h1
    have hc : n < (cummax l).length := by rw [cummax_length]; exact hn
    simp only [drawdown, List.getElem_zipWith, List.getElem_map,
      List.getElem_range]
    rw [← List.getD_eq_getElem (cummax l) 0 hc, cummax_getD l n hn,
      List.getD_eq_getElem l 0 hn]

theorem cummaxAux_of_chain : ∀ (xs : List ℚ) (x : ℚ),
    List.Chain (· ≤ ·) x xs → cummaxAux x xs = xs := by
  intro xs
  induction xs with
  | nil => intro x _; rfl
  | cons y ys ih =>
    intro x hchain
    rcases List.chain_cons.mp hchain with ⟨hxy, htail⟩
    simp only [cummaxAux, max_eq_right hxy]
    rw [ih y htail]

theorem chain_pos : ∀ (xs : List ℚ) (x : ℚ), 0 < x →
    List.Chain (· ≤ ·) x xs → ∀ y ∈ xs, 0 < y := by
  intro xs
  induction xs with
  | nil => intro x _ _ y hy; simp at hy
  | cons z zs ih =>
    intro x hx hchain y hy
    rcases List.chain_cons.mp hchain with ⟨hxz, htail⟩
    have hz : 0 < z := lt_of_lt_of_le hx hxz
    rcases List.mem_cons.mp hy with rfl | hy'
    · exact hz
    · exact ih z hz htail y hy'

/-! ### Claim about the max drawdown -/

/-- Claim C7: for every completed portfolio value series (a series whose
first value is the configured initial investment), the code's max
drawdown equals the spec's formula `min over t of
value[t] / runningMax(value[0..t]) - 1`, is always ≤ 0, and equals 0
when the series is non-decreasing. -/
theorem claim_C7 (v : List ℚ) (h : v.head? = some initial_investment) :
    max_drawdown v = max_drawdown_formula v ∧
    max_drawdown v ≤ 0 ∧
    (List.Chain' (· ≤ ·) v → max_drawdown v = 0) := by
  obtain ⟨xs, rfl⟩ : ∃ xs, v = initial_investment :: xs := by
    cases v with
    | nil => simp at h
    | cons x xs =>
      refine ⟨xs, ?_⟩
      have : x = initial_investment := by
        simpa using h
      rw [this]
  have hpos : (0:ℚ) < initial_investment := by norm_num [initial_investment]
  have hdd : drawdown (initial_investment :: xs) =
      (initial_investment / initial_investment - 1) ::
        List.zipWith (fun v m => v / m - 1) xs (cummaxAux initial_investment xs) := by
    simp [drawdown, cummax]
  have hzero : initial_investment / initial_investment - (1:ℚ) = 0 := by
    rw [div_self (ne_of_gt hpos)]
    ring
  refine ⟨max_drawdown_eq_formula _, ?_, ?_⟩
  · rw [max_drawdown, hdd, hzero]
    exact foldl_min_le_init _ 0
  · intro hchain
    have hchain' : List.Chain (· ≤ ·) initial_investment xs := hchain
    rw [max_drawdown, hdd, hzero, cummaxAux_of_chain xs initial_investment hchain',
      List.zipWith_same]
    have hall : ∀ z ∈ xs.map (fun v => v / v - 1), (0:ℚ) ≤ z := by
      intro z hz
      obtain ⟨y, hy, rfl⟩ := List.mem_map.mp hz
      have hy0 : 0 < y := chain_pos xs initial_investment hpos hchain' y hy
      rw [div_self (ne_of_gt hy0)]
      norm_num
    exact foldl_min_const _ 0 hall

/-- Witness for C7: a concrete series starting at the initial
investment. -/
theorem claim_C7_witness :
    (([(10000:ℚ), 9000, 12000]).head? = some initial_investment) ∧
    (max_drawdown [(10000:ℚ), 9000, 12000] =
        max_drawdown_formula [(10000:ℚ), 9000, 12000] ∧
      max_drawdown [(10000:ℚ), 9000, 12000] ≤ 0 ∧
      (List.Chain' (· ≤ ·) [(10000:ℚ), 9000, 12000] →
        max_drawdown [(10000:ℚ), 9000, 12000] = 0)) :=
  ⟨by norm_num [initial_investment],
    claim_C7 [10000, 9000, 12000] (by norm_num [initial_investment])⟩

/-! ### Claim about the Sharpe ratio -/

/-- Claim C8: the reported Sharpe ratio is `annual_return / stdev`
whenever `stdev > 0`, and is exactly 0 whenever `stdev ≤ 0` — in
particular for the zero-volatility constant price series of the
witness below. -/
theorem claim_C8 (l : List ℚ) :
    (0 < stdev l → sharpe l = annual_return l / stdev l) ∧
    (stdev l ≤ 0 → sharpe l = 0) := by
  constructor
  · intro h
    rw [sharpe, if_pos h]
  · intro h
    rw [sharpe, if_neg (not_lt.mpr h)]

/-- Witness for C8: scenario C, a constant price series repeated five
times, has `stdev = 0` and the Sharpe ratio is reported as 0. -/
theorem claim_C8_witness :
    stdev [(7:ℚ), 7, 7, 7, 7] ≤ 0 ∧ sharpe [(7:ℚ), 7, 7, 7, 7] = 0 := by
  have h1 : pct_change [(7:ℚ), 7, 7, 7, 7] = [0, 0, 0, 0] := by
    norm_num [pct_change, List.zip]
  have h2 : sample_variance [(0:ℚ), 0, 0, 0] = 0 := by
    norm_num [sample_variance]
  have h : stdev [(7:ℚ), 7, 7, 7, 7] ≤ 0 := by
    simp only [stdev, h1, h2]
    norm_num
  exact ⟨h, (claim_C8 [(7:ℚ), 7, 7, 7, 7]).2 h⟩
